import Mathlib

/-!
Verification of the iter-ts lazy sequence library (`src/src/index.ts`,
compiled `fold` in `src/dist/index.d.ts`).

Embedding: a JavaScript generator factory `() => Generator<A>` is modelled as a
pure producer `Unit → List A` returning the list of values one fresh traversal
yields (for claims about infinite sources, a producer is instead a stream
`Nat → A` and the consuming loop is translated separately).  Each combinator's
generator body is translated loop-by-loop into a recursive Lean function; the
`Iter` methods wrap those loops exactly as the source wraps its generators.
Where a claim is about how many elements a stage pulls from its parent, an
instrumented copy of the same loop additionally counts one pull per element
taken off the input list (a `for..of` iteration step in the source).
-/

namespace IterTs

/-- The `Iter<A>` class: `private constructor(private factory: () => Generator<A>)`.
A producer is pure: invoking it models constructing a fresh generator and
draining it, independent of any previous traversal. -/
structure Iter (A : Type) where
  factory : Unit → List A

/-- Loop of `Iter.fromArray`'s generator:
`for (let i = 0; i < source.length; i++) { yield source[i] }`, started at
index `i`. -/
def fromArrayGo (source : List A) (i : Nat) : List A :=
  if h : i < source.length then source.get ⟨i, h⟩ :: fromArrayGo source (i + 1) else []
termination_by source.length - i

/-- `Iter.fromArray(source)`: wraps the index loop in a fresh-per-call factory. -/
def Iter.fromArray (source : List A) : Iter A :=
  ⟨fun _ => fromArrayGo source 0⟩

/-- `Iter.collect()`: `return [...this.factory()]` — invoke the factory once and
drain the resulting traversal. -/
def Iter.collect (it : Iter A) : List A :=
  it.factory ()

/-- Loop of `Iter.map`'s generator:
`for (const item of context.factory()) { yield predicate(item) }`. -/
def mapGo (predicate : A → B) : List A → List B
  | [] => []
  | item :: rest => predicate item :: mapGo predicate rest

/-- `Iter.map(predicate)`. -/
def Iter.map (predicate : A → B) (it : Iter A) : Iter B :=
  ⟨fun _ => mapGo predicate (it.factory ())⟩

/-- Loop of `Iter.filter`'s generator:
`for (const item of context.factory()) { if (predicate(item)) { yield item } }`.
The `truthy` branch of `Iter.partition` is this same loop; the `falsy` branch
is this loop with the predicate negated. -/
def filterGo (predicate : A → Bool) : List A → List A
  | [] => []
  | item :: rest =>
    if predicate item then item :: filterGo predicate rest else filterGo predicate rest

/-- `Iter.filter(predicate)`. -/
def Iter.filter (predicate : A → Bool) (it : Iter A) : Iter A :=
  ⟨fun _ => filterGo predicate (it.factory ())⟩

/-- `Iter.partition(partitionFn)`: two generators, each invoking the parent
factory afresh, one keeping elements where the predicate holds, the other
those where it does not. -/
def Iter.partition (partitionFn : A → Bool) (it : Iter A) : Iter A × Iter A :=
  (⟨fun _ => filterGo partitionFn (it.factory ())⟩,
   ⟨fun _ => filterGo (fun item => !(partitionFn item)) (it.factory ())⟩)

/-- Loop of `Iter.take`'s generator, with loop counter `i`:
`for (const item of context.factory()) { if (i >= count) break; i++; yield item }`.
Note the element is pulled from the parent before the bound check. -/
def takeGo (count : Nat) (i : Nat) : List A → List A
  | [] => []
  | item :: rest => if count ≤ i then [] else item :: takeGo count (i + 1) rest

/-- `Iter.take(count)` (`count` is a non-negative integer). -/
def Iter.take (count : Nat) (it : Iter A) : Iter A :=
  ⟨fun _ => takeGo count 0 (it.factory ())⟩

/-- The `take` loop instrumented with a pull counter: identical control flow to
`takeGo`, additionally returning how many elements the `for..of` loop pulled
from the parent traversal (one pull per iteration entered, including the final
iteration that only performs the bound check and breaks). -/
def takeRun (count : Nat) (i : Nat) : List A → List A × Nat
  | [] => ([], 0)
  | item :: rest =>
    if count ≤ i then ([], 1)
    else
      let r := takeRun count (i + 1) rest
      (item :: r.1, r.2 + 1)

/-- Loop of `Iter.reduce`:
`let acc = initial; for (const item of this.factory()) { acc = reducer(acc, item) }; return acc`. -/
def reduceGo (reducer : B → A → B) (acc : B) : List A → B
  | [] => acc
  | item :: rest => reduceGo reducer (reducer acc item) rest

/-- `Iter.reduce(reducer, initial)`. -/
def Iter.reduce (reducer : B → A → B) (initial : B) (it : Iter A) : B :=
  reduceGo reducer initial (it.factory ())

/-- Loop of `Iter.fold` (from the compiled `dist` module):
`let acc = initial; for (const item of this.factory()) { acc = predicate(acc, item) }; return acc`. -/
def foldGo (predicate : B → A → B) (acc : B) : List A → B
  | [] => acc
  | item :: rest => foldGo predicate (predicate acc item) rest

/-- `Iter.fold(initial, predicate)` — note the flipped argument order versus
`Iter.reduce`. -/
def Iter.fold (initial : B) (predicate : B → A → B) (it : Iter A) : B :=
  foldGo predicate initial (it.factory ())

/-- Loop of `Iter.scan`'s generator:
`let val = initial; for (const item of context.factory()) { val = scanner(val, item); yield val }`. -/
def scanGo (scanner : B → A → B) (val : B) : List A → List B
  | [] => []
  | item :: rest =>
    let v := scanner val item
    v :: scanGo scanner v rest

/-- `Iter.scan(scanner, initial)`. -/
def Iter.scan (scanner : B → A → B) (initial : B) (it : Iter A) : Iter B :=
  ⟨fun _ => scanGo scanner initial (it.factory ())⟩

/-- Loop of `Iter.pairwise`'s generator, with buffer `arr`:
`for (const item of context.factory()) { arr.push(item); if (arr.length == 2) { yield structuredClone(arr); arr.splice(0, 1) } }`.
In this pure model `structuredClone` is the identity on values (the failing
case is modelled by `pairwiseCloneGo` below). -/
def pairwiseGo (arr : List A) : List A → List (A × A)
  | [] => []
  | item :: rest =>
    match arr ++ [item] with
    | [a, b] => (a, b) :: pairwiseGo [b] rest
    | arr2 => pairwiseGo arr2 rest

/-- `Iter.pairwise()`. -/
def Iter.pairwise (it : Iter A) : Iter (A × A) :=
  ⟨fun _ => pairwiseGo [] (it.factory ())⟩

/-- Loop of `Iter.every`:
`for (const item of this.factory()) { if (!predicate(item)) { return false } }; return true`. -/
def everyGo (predicate : A → Bool) : List A → Bool
  | [] => true
  | item :: rest => if !(predicate item) then false else everyGo predicate rest

/-- `Iter.every(predicate)` (the spec's `all`). -/
def Iter.every (predicate : A → Bool) (it : Iter A) : Bool :=
  everyGo predicate (it.factory ())

/-- The `every` loop instrumented with a pull counter: identical control flow
to `everyGo`, additionally counting the elements pulled from the parent
traversal before the method returns. -/
def everyRun (predicate : A → Bool) : List A → Bool × Nat
  | [] => (true, 0)
  | item :: rest =>
    if !(predicate item) then (false, 1)
    else
      let r := everyRun predicate rest
      (r.1, r.2 + 1)

/-- Ascending branch of `Iter.range`'s generator:
`for (let i = start; i < end; i++) { yield i }`, started at `i`. -/
def rangeAscGo (i e : Int) : List Int :=
  if i < e then i :: rangeAscGo (i + 1) e else []
termination_by (e - i).toNat
decreasing_by omega

/-- Descending branch of `Iter.range`'s generator:
`for (let i = start; i > end; i--) { yield i }`, started at `i`. -/
def rangeDescGo (i e : Int) : List Int :=
  if e < i then i :: rangeDescGo (i - 1) e else []
termination_by (i - e).toNat
decreasing_by omega

/-- `Iter.range(start, end)` for finite integer bounds:
`const isAsc = start < end; if (isAsc) { for (let i = start; i < end; i++) yield i; return } for (let i = start; i > end; i--) yield i`. -/
def Iter.range (start e : Int) : Iter Int :=
  ⟨fun _ => if start < e then rangeAscGo start e else rangeDescGo start e⟩

/-- The traversal produced by `Iter.range(start, Infinity)`: with `end = +∞`
the guard `i < end` of the ascending loop never fails, so the generator yields
the unbounded stream `start, start+1, start+2, …`; its `k`-th pulled value is
`start + k`. -/
def rangeFrom (start : Int) : Nat → Int :=
  fun k => start + (k : Int)

/-- The `take` loop run over an infinite parent stream `f` (the `k`-th pull
from the parent returns `f k`): same control flow as `takeGo` — pull `f k`,
break if `i >= count`, else increment and yield. Totality of this definition
is the termination of `take` over an unbounded source. -/
def takeStreamGo (f : Nat → A) (count i k : Nat) : List A :=
  if count ≤ i then [] else f k :: takeStreamGo f count (i + 1) (k + 1)
termination_by count - i
decreasing_by omega

/-- `collect()` applied to a take-bounded infinite source. -/
def takeStream (count : Nat) (f : Nat → A) : List A :=
  takeStreamGo f count 0 0

/-- The `pairwise` loop with the host `structuredClone` modelled explicitly:
`cloneable a = false` means the value `a` is not structured-cloneable (a
function, a symbol, …), in which case `structuredClone(arr)` throws a
`DataCloneError` — modelled as `Except.error ()` — instead of yielding the
pair. Control flow is otherwise identical to `pairwiseGo`. -/
def pairwiseCloneGo (cloneable : A → Bool) (arr : List A) :
    List A → Except Unit (List (A × A))
  | [] => Except.ok []
  | item :: rest =>
    match arr ++ [item] with
    | [a, b] =>
      if cloneable a && cloneable b then
        match pairwiseCloneGo cloneable [b] rest with
        | Except.ok out => Except.ok ((a, b) :: out)
        | Except.error e => Except.error e
      else Except.error ()
    | arr2 => pairwiseCloneGo cloneable arr2 rest

/-- A full `pairwise` traversal under the explicit `structuredClone` model. -/
def pairwiseCloneRun (cloneable : A → Bool) (xs : List A) : Except Unit (List (A × A)) :=
  pairwiseCloneGo cloneable [] xs

/-- Two successive `collect()` calls on the same `Iter`: each call invokes the
factory anew, constructing a fresh generator (the source stores no traversal
state on the `Iter` itself). -/
def collectTwice (it : Iter A) : List A × List A :=
  (it.collect, it.collect)

/-! ## Closed forms for the translated loops -/

theorem fromArrayGo_eq_drop (source : List A) : ∀ i : Nat, fromArrayGo source i = source.drop i := by
  have key : ∀ (n i : Nat), source.length - i = n → fromArrayGo source i = source.drop i := by
    intro n
    induction n with
    | zero =>
      intro i h
      rw [fromArrayGo]
      have hge : ¬ i < source.length := by omega
      have hd : source.drop i = [] := List.drop_eq_nil_of_le (by omega)
      simp [hge, hd]
    | succ m ih =>
      intro i h
      rw [fromArrayGo]
      have hlt : i < source.length := by omega
      rw [dif_pos hlt, ih (i + 1) (by omega)]
      rw [List.drop_eq_getElem_cons hlt]
      simp
  intro i
  exact key (source.length - i) i rfl

theorem fromArray_collect (source : List A) : (Iter.fromArray source).collect = source := by
  simpa using fromArrayGo_eq_drop source 0

theorem mapGo_eq (predicate : A → B) (xs : List A) : mapGo predicate xs = xs.map predicate := by
  induction xs with
  | nil => rfl
  | cons x rest ih => simp [mapGo, ih]

theorem filterGo_eq (predicate : A → Bool) (xs : List A) :
    filterGo predicate xs = xs.filter predicate := by
  induction xs with
  | nil => rfl
  | cons x rest ih =>
    by_cases hx : predicate x <;> simp [filterGo, hx, List.filter_cons, ih]

theorem takeGo_eq (count : Nat) (xs : List A) : ∀ i : Nat, takeGo count i xs = xs.take (count - i) := by
  induction xs with
  | nil => intro i; simp [takeGo]
  | cons x rest ih =>
    intro i
    by_cases hi : count ≤ i
    · have : count - i = 0 := by omega
      simp [takeGo, hi, this]
    · have : count - i = (count - (i + 1)) + 1 := by omega
      simp [takeGo, hi, this, ih (i + 1)]

theorem takeRun_fst (count : Nat) (xs : List A) :
    ∀ i : Nat, (takeRun count i xs).1 = takeGo count i xs := by
  induction xs with
  | nil => intro i; rfl
  | cons x rest ih =>
    intro i
    by_cases hi : count ≤ i <;> simp [takeRun, takeGo, hi, ih (i + 1)]

theorem takeRun_snd (count : Nat) (xs : List A) :
    ∀ i : Nat, (takeRun count i xs).2 = min (count - i + 1) xs.length := by
  induction xs with
  | nil => intro i; rfl
  | cons x rest ih =>
    intro i
    by_cases hi : count ≤ i
    · have : count - i = 0 := by omega
      simp [takeRun, hi, this]
    · have h2 := ih (i + 1)
      simp only [takeRun, if_neg hi, List.length_cons, h2]
      omega

theorem reduceGo_eq (reducer : B → A → B) (xs : List A) :
    ∀ acc : B, reduceGo reducer acc xs = xs.foldl reducer acc := by
  induction xs with
  | nil => intro acc; rfl
  | cons x rest ih => intro acc; simp [reduceGo, ih]

theorem foldGo_eq (predicate : B → A → B) (xs : List A) :
    ∀ acc : B, foldGo predicate acc xs = xs.foldl predicate acc := by
  induction xs with
  | nil => intro acc; rfl
  | cons x rest ih => intro acc; simp [foldGo, ih]

theorem everyGo_eq (predicate : A → Bool) (xs : List A) :
    everyGo predicate xs = xs.all predicate := by
  induction xs with
  | nil => rfl
  | cons x rest ih =>
    by_cases hx : predicate x <;> simp [everyGo, hx, ih]

theorem everyRun_fst (predicate : A → Bool) (xs : List A) :
    (everyRun predicate xs).1 = everyGo predicate xs := by
  induction xs with
  | nil => rfl
  | cons x rest ih =>
    by_cases hx : predicate x <;> simp [everyRun, everyGo, hx, ih]

theorem everyRun_snd (predicate : A → Bool) (xs : List A) :
    (everyRun predicate xs).2 = min xs.length (xs.findIdx (fun a => !(predicate a)) + 1) := by
  induction xs with
  | nil => rfl
  | cons x rest ih =>
    by_cases hx : predicate x
    · have h1 : (everyRun predicate (x :: rest)).2 = (everyRun predicate rest).2 + 1 := by
        simp [everyRun, hx]
      have h2 : (x :: rest).findIdx (fun a => !(predicate a)) =
          rest.findIdx (fun a => !(predicate a)) + 1 := by
        simp [List.findIdx_cons, hx]
      rw [h1, h2, ih]
      simp only [List.length_cons]
      omega
    · have hx2 : predicate x = false := by simpa using hx
      have h1 : (everyRun predicate (x :: rest)).2 = 1 := by
        simp [everyRun, hx2]
      have h2 : (x :: rest).findIdx (fun a => !(predicate a)) = 0 := by
        simp [List.findIdx_cons, hx2]
      rw [h1, h2]
      simp only [List.length_cons]
      omega

theorem scanGo_eq (scanner : B → A → B) (xs : List A) :
    ∀ val : B, scanGo scanner val xs =
      (List.range xs.length).map (fun k => (xs.take (k + 1)).foldl scanner val) := by
  induction xs with
  | nil => intro val; rfl
  | cons x rest ih =>
    intro val
    simp only [scanGo, List.length_cons, List.range_succ_eq_map, List.map_cons, List.map_map,
      List.take_succ_cons, List.foldl_cons, List.take_zero, List.foldl_nil]
    refine congrArg (fun l => scanner val x :: l) ?_
    rw [ih (scanner val x)]
    refine List.map_congr_left ?_
    intro k _
    simp

theorem pairwiseGo_single (a : A) (ys : List A) : pairwiseGo [a] ys = (a :: ys).zip ys := by
  induction ys generalizing a with
  | nil => rfl
  | cons b rest ih => simp [pairwiseGo, ih b, List.zip]

theorem pairwiseGo_nil_eq (xs : List A) : pairwiseGo [] xs = xs.zip xs.tail := by
  cases xs with
  | nil => rfl
  | cons x rest =>
    show pairwiseGo [x] rest = (x :: rest).zip rest
    exact pairwiseGo_single x rest

theorem zip_tail_length (xs : List A) : (xs.zip xs.tail).length = xs.length - 1 := by
  cases xs with
  | nil => rfl
  | cons x rest => simp [List.length_zip]

theorem rangeAscGo_eq (n : Nat) : ∀ i e : Int, (e - i).toNat = n →
    rangeAscGo i e = (List.range n).map (fun k : Nat => i + (k : Int)) := by
  induction n with
  | zero =>
    intro i e h
    rw [rangeAscGo]
    have hge : ¬ i < e := by omega
    simp [hge]
  | succ m ih =>
    intro i e h
    rw [rangeAscGo]
    have hlt : i < e := by omega
    rw [if_pos hlt, ih (i + 1) e (by omega)]
    rw [List.range_succ_eq_map]
    simp only [List.map_cons, List.map_map]
    refine congrArg₂ (fun a l => a :: l) (by omega) ?_
    refine List.map_congr_left ?_
    intro k _
    simp only [Function.comp_apply, Nat.succ_eq_add_one]
    push_cast
    ring

theorem rangeDescGo_eq (n : Nat) : ∀ i e : Int, (i - e).toNat = n →
    rangeDescGo i e = (List.range n).map (fun k : Nat => i - (k : Int)) := by
  induction n with
  | zero =>
    intro i e h
    rw [rangeDescGo]
    have hge : ¬ e < i := by omega
    simp [hge]
  | succ m ih =>
    intro i e h
    rw [rangeDescGo]
    have hlt : e < i := by omega
    rw [if_pos hlt, ih (i - 1) e (by omega)]
    rw [List.range_succ_eq_map]
    simp only [List.map_cons, List.map_map]
    refine congrArg₂ (fun a l => a :: l) (by omega) ?_
    refine List.map_congr_left ?_
    intro k _
    simp only [Function.comp_apply, Nat.succ_eq_add_one]
    push_cast
    ring

theorem takeStreamGo_eq (f : Nat → A) (count : Nat) :
    ∀ i k : Nat, takeStreamGo f count i k =
      (List.range (count - i)).map (fun j => f (k + j)) := by
  have key : ∀ (n i k : Nat), count - i = n →
      takeStreamGo f count i k = (List.range n).map (fun j => f (k + j)) := by
    intro n
    induction n with
    | zero =>
      intro i k h
      rw [takeStreamGo]
      have hge : count ≤ i := by omega
      simp [hge]
    | succ m ih =>
      intro i k h
      rw [takeStreamGo]
      have hlt : ¬ count ≤ i := by omega
      rw [if_neg hlt, ih (i + 1) (k + 1) (by omega)]
      rw [List.range_succ_eq_map]
      simp only [List.map_cons, List.map_map]
      refine congrArg₂ (fun a l => a :: l) (by rw [Nat.add_zero]) ?_
      refine List.map_congr_left ?_
      intro j _
      simp only [Function.comp_apply, Nat.succ_eq_add_one]
      ring_nf
  intro i k
  exact key (count - i) i k rfl

/-- Closed form of a full `Iter.range` traversal, both directions. -/
theorem range_collect_eq (s e : Int) :
    (Iter.range s e).collect =
      if s < e then (List.range (e - s).toNat).map (fun k : Nat => s + (k : Int))
      else (List.range (s - e).toNat).map (fun k : Nat => s - (k : Int)) := by
  by_cases h : s < e
  · simp only [Iter.range, Iter.collect, if_pos h]
    exact rangeAscGo_eq (e - s).toNat s e rfl
  · simp only [Iter.range, Iter.collect, if_neg h]
    exact rangeDescGo_eq (s - e).toNat s e rfl

/-! ## Claim theorems -/

/-- C1 counterexample: the claim says `take(n)` "stops pulling from the parent
entirely" after yielding its (at most `n`) elements, i.e. a fully consumed
`take(1)` over a longer parent would pull exactly its 1 yielded element.  The
translated loop pulls a further element before the bound check fires: over the
parent `[10, 20, 30]`, `take(1)` pulls 2 elements, not 1. -/
theorem take_stops_pulling_counterexample :
    ¬ ((takeRun 1 0 ([10, 20, 30] : List Int)).2 ≤ 1) := by
  decide

/-- C1 (amended): for every sequence and every n ≥ 0, `take(n)` yields exactly
the first `min(n, length)` elements of its parent in order, and pulls at most
`n + 1` elements from the parent — exactly `min(n + 1, length)` — so it never
drains the remainder beyond the one element consumed by the final bound check;
in particular `range(0, +∞).take(5).collect()` terminates and returns
`[0,1,2,3,4]` (totality of `takeStream` is that termination). -/
theorem take_prefix_bounded_pulls {A : Type} (xs : List A) (n : Nat) :
    (Iter.take n (Iter.fromArray xs)).collect = xs.take n ∧
    (takeRun n 0 xs).2 = min (n + 1) xs.length ∧
    takeStream 5 (rangeFrom 0) = [0, 1, 2, 3, 4] := by
  refine ⟨?_, ?_, ?_⟩
  · show takeGo n 0 (fromArrayGo xs 0) = xs.take n
    rw [fromArrayGo_eq_drop xs 0, List.drop_zero, takeGo_eq]
    simp
  · rw [takeRun_snd n xs 0]
    simp
  · rw [takeStream, takeStreamGo_eq]
    decide

/-- C2: `range(start, end)` produces the integers from `start` toward `end`
excluding `end`, ascending by +1 when `start < end` and descending by −1
otherwise (the integers `start ± k` for `k < |end − start|`), and the empty
sequence when they are equal; concretely `range(0,3) = [0,1,2]`,
`range(0,−4) = [0,−1,−2,−3]`, `range(2,2) = []`. -/
theorem range_direction_spec :
    (∀ s e : Int, (Iter.range s e).collect =
      if s < e then (List.range (e - s).toNat).map (fun k : Nat => s + (k : Int))
      else (List.range (s - e).toNat).map (fun k : Nat => s - (k : Int))) ∧
    (Iter.range 0 3).collect = [0, 1, 2] ∧
    (Iter.range 0 (-4)).collect = [0, -1, -2, -3] ∧
    (Iter.range 2 2).collect = [] := by
  refine ⟨range_collect_eq, ?_, ?_, ?_⟩
  · rw [range_collect_eq]
    decide
  · rw [range_collect_eq]
    decide
  · rw [range_collect_eq]
    decide

/-- C3: `scan(f, initial)` yields exactly one output per input element — its
output has one entry per index `k` of the input, and the `k`-th entry is the
left fold of `f` over the first `k + 1` input elements starting from `initial`
(so the unmodified initial value is never yielded: every entry has `f` applied
at least once); concretely `fromArray([1,2,3]).scan(+, 10) = [11,13,16]`. -/
theorem scan_accumulation_spec {A B : Type} (f : B → A → B) (init : B) (xs : List A) :
    (Iter.scan f init (Iter.fromArray xs)).collect =
      (List.range xs.length).map (fun k => (xs.take (k + 1)).foldl f init) ∧
    (Iter.scan (fun a b => a + b) (10 : Int) (Iter.fromArray [1, 2, 3])).collect
      = [11, 13, 16] := by
  constructor
  · show scanGo f init (fromArrayGo xs 0) = _
    rw [fromArrayGo_eq_drop xs 0, List.drop_zero, scanGo_eq]
  · show scanGo (fun a b => a + b) (10 : Int) (fromArrayGo [1, 2, 3] 0) = [11, 13, 16]
    rw [fromArrayGo_eq_drop _ 0, List.drop_zero]
    decide

/-- C4: `partition(p)` over a finite re-invocable source yields two sequences:
the first collects exactly the elements satisfying `p`, the second exactly
those not satisfying it, each preserving source order (they are the order-
preserving filters of the source), and together they contain every element of
the source exactly once (their concatenation is a permutation of it). -/
theorem partition_complement_spec {A : Type} (p : A → Bool) (xs : List A) :
    (Iter.partition p (Iter.fromArray xs)).1.collect = xs.filter p ∧
    (Iter.partition p (Iter.fromArray xs)).2.collect = xs.filter (fun a => !(p a)) ∧
    List.Perm
      ((Iter.partition p (Iter.fromArray xs)).1.collect ++
        (Iter.partition p (Iter.fromArray xs)).2.collect) xs := by
  have h1 : (Iter.partition p (Iter.fromArray xs)).1.collect = xs.filter p := by
    show filterGo p (fromArrayGo xs 0) = _
    rw [fromArrayGo_eq_drop xs 0, List.drop_zero, filterGo_eq]
  have h2 : (Iter.partition p (Iter.fromArray xs)).2.collect = xs.filter (fun a => !(p a)) := by
    show filterGo (fun a => !(p a)) (fromArrayGo xs 0) = _
    rw [fromArrayGo_eq_drop xs 0, List.drop_zero, filterGo_eq]
  refine ⟨h1, h2, ?_⟩
  rw [h1, h2]
  exact List.filter_append_perm p xs

/-- C5: `pairwise()` on a finite source of length `k` yields the
`max(k − 1, 0)` overlapping consecutive pairs `(e0,e1), (e1,e2), …` in order
(the zip of the source with its own tail); concretely
`fromArray([0,1,2,3,4]).pairwise().collect() = [(0,1),(1,2),(2,3),(3,4)]`. -/
theorem pairwise_overlap_spec {A : Type} (xs : List A) :
    (Iter.pairwise (Iter.fromArray xs)).collect = xs.zip xs.tail ∧
    (Iter.pairwise (Iter.fromArray xs)).collect.length = xs.length - 1 ∧
    (Iter.pairwise (Iter.fromArray ([0, 1, 2, 3, 4] : List Int))).collect =
      [(0, 1), (1, 2), (2, 3), (3, 4)] := by
  have h1 : (Iter.pairwise (Iter.fromArray xs)).collect = xs.zip xs.tail := by
    show pairwiseGo [] (fromArrayGo xs 0) = _
    rw [fromArrayGo_eq_drop xs 0, List.drop_zero]
    exact pairwiseGo_nil_eq xs
  refine ⟨h1, ?_, ?_⟩
  · rw [h1]
    exact zip_tail_length xs
  · show pairwiseGo [] (fromArrayGo [0, 1, 2, 3, 4] 0) = _
    rw [fromArrayGo_eq_drop _ 0, List.drop_zero]
    decide

/-- C6: for every finite sequence, binary function `f` (no associativity
assumed) and initial value `i`, `reduce(f, i)` and `fold(i, f)` return the
identical left-fold result — the final accumulator of folding `f` over the
traversal in order starting from `i` — and on the empty sequence both return
`i` unchanged. -/
theorem reduce_fold_equiv {A B : Type} (f : B → A → B) (i : B) (it : Iter A) :
    Iter.reduce f i it = Iter.fold i f it ∧
    Iter.reduce f i it = it.collect.foldl f i ∧
    Iter.reduce f i (Iter.fromArray ([] : List A)) = i ∧
    Iter.fold i f (Iter.fromArray ([] : List A)) = i := by
  refine ⟨?_, ?_, ?_, ?_⟩
  · show reduceGo f i (it.factory ()) = foldGo f i (it.factory ())
    rw [reduceGo_eq, foldGo_eq]
  · show reduceGo f i (it.factory ()) = (it.factory ()).foldl f i
    rw [reduceGo_eq]
  · show reduceGo f i (fromArrayGo [] 0) = i
    rw [fromArrayGo_eq_drop _ 0]
    rfl
  · show foldGo f i (fromArrayGo [] 0) = i
    rw [fromArrayGo_eq_drop _ 0]
    rfl

/-- C7: `every(pred)` (the spec's `all`) returns `true` iff every element of
the traversal satisfies `pred` — vacuously `true` on the empty sequence — and
short-circuits: the number of elements it pulls is `min(length, j + 1)` where
`j` is the index of the first element failing `pred` (`findIdx` returns the
length when there is none), so no element past the first failure is pulled. -/
theorem every_shortcircuit_spec {A : Type} (p : A → Bool) (xs : List A) :
    Iter.every p (Iter.fromArray xs) = xs.all p ∧
    Iter.every p (Iter.fromArray ([] : List A)) = true ∧
    (everyRun p xs).1 = Iter.every p (Iter.fromArray xs) ∧
    (everyRun p xs).2 = min xs.length (xs.findIdx (fun a => !(p a)) + 1) := by
  have h1 : Iter.every p (Iter.fromArray xs) = xs.all p := by
    show everyGo p (fromArrayGo xs 0) = _
    rw [fromArrayGo_eq_drop xs 0, List.drop_zero, everyGo_eq]
  refine ⟨h1, ?_, ?_, everyRun_snd p xs⟩
  · show everyGo p (fromArrayGo [] 0) = true
    rw [fromArrayGo_eq_drop _ 0]
    rfl
  · rw [everyRun_fst, h1]
    exact everyGo_eq p xs

/-- C8: traversing the same `Iter` twice yields two complete identical
independent traversals: each `collect()` invokes the stored factory anew, so
on `fromArray(xs)` — and on a combinator chain over it — both calls return the
full source, with no state carried from the first traversal to the second. -/
theorem collect_twice_independent {A : Type} (xs : List A) (f : A → A) :
    collectTwice (Iter.fromArray xs) = (xs, xs) ∧
    collectTwice (Iter.map f (Iter.fromArray xs)) = (xs.map f, xs.map f) := by
  have hm : (Iter.map f (Iter.fromArray xs)).collect = xs.map f := by
    show mapGo f (fromArrayGo xs 0) = _
    rw [fromArrayGo_eq_drop xs 0, List.drop_zero, mapGo_eq]
  constructor
  · simp only [collectTwice, fromArray_collect]
  · simp only [collectTwice, hm]

/-- C9: for every n ≥ 0 and a parent holding more than n elements, a fully
consumed `take(n)` pulls exactly n + 1 elements from the parent: the n it
yields plus one further element pulled, found to exceed the bound, and
discarded (so an inspect stage directly upstream fires n + 1 times). -/
theorem take_pulls_n_plus_one {A : Type} (xs : List A) (n : Nat) (h : n < xs.length) :
    (takeRun n 0 xs).2 = n + 1 := by
  rw [takeRun_snd n xs 0]
  omega

/-- Witness for C9 at `n = 2` over the four-element parent `[5, 6, 7, 8]`. -/
theorem take_pulls_n_plus_one_witness :
    2 < ([5, 6, 7, 8] : List Int).length ∧ (takeRun 2 0 ([5, 6, 7, 8] : List Int)).2 = 2 + 1 :=
  ⟨by decide, take_pulls_n_plus_one ([5, 6, 7, 8] : List Int) 2 (by decide)⟩

/-- C10: `pairwise()` snapshots each pair with the host structured-clone
algorithm before yielding; over a source of length ≥ 2 none of whose elements
is structured-cloneable, its traversal throws (`Except.error`) on producing
the first pair, while combinators that do not clone — `map`, `filter` (also
the loops of `partition`, and `take`/`scan`/`inspect` likewise pass values
through untouched) — forward the very same values without error. -/
theorem pairwise_clone_error_spec {A : Type} (cloneable : A → Bool) (xs : List A)
    (hlen : 2 ≤ xs.length) (hnc : xs.all (fun a => !(cloneable a)) = true) :
    pairwiseCloneRun cloneable xs = Except.error () ∧
    mapGo (fun a => a) xs = xs ∧
    filterGo (fun _ => true) xs = xs := by
  refine ⟨?_, ?_, ?_⟩
  · cases xs with
    | nil => simp at hlen
    | cons a rest0 =>
      cases rest0 with
      | nil =>
        simp only [List.length_cons, List.length_nil] at hlen
        omega
      | cons b rest =>
        have ha : cloneable a = false := by
          have := List.all_eq_true.mp hnc a (by simp)
          simpa using this
        show pairwiseCloneGo cloneable [] (a :: b :: rest) = Except.error ()
        simp [pairwiseCloneRun, pairwiseCloneGo, ha]
  · rw [mapGo_eq]
    simp
  · rw [filterGo_eq]
    simp

/-- Witness for C10: over the two-element integer source `[1, 2]` with nothing
cloneable, the pairwise traversal errors while map and filter pass the
elements through. -/
theorem pairwise_clone_error_witness :
    (2 ≤ ([1, 2] : List Int).length ∧
      ([1, 2] : List Int).all (fun a => !((fun _ => false) a)) = true) ∧
    (pairwiseCloneRun (fun _ => false) ([1, 2] : List Int) = Except.error () ∧
      mapGo (fun a => a) ([1, 2] : List Int) = [1, 2] ∧
      filterGo (fun _ => true) ([1, 2] : List Int) = [1, 2]) :=
  ⟨⟨by decide, by decide⟩,
    pairwise_clone_error_spec (fun _ => false) [1, 2] (by decide) (by decide)⟩

end IterTs
